import Mathlib

/-!
Verification development for the aikit orchestrator core
(`src/aikit-orchestrator/src/ai-adapter.ts`: the provider adapters and the
`ToolRegistry` agent loop / permission machinery).

The TypeScript source is shallowly embedded: pure logic becomes Lean
functions; external effects (the provider SDK call, the streamed chunks, the
owner extension's reply, the interactive permission surface, `JSON.parse` /
`JSON.stringify`) are inputs to those functions.  Machine state that the
source threads through `this` (the pending-permission map, conversation
history appends) is passed explicitly.
-/

/-- Canonical message roles (`AIMessage.role` in the source). -/
inductive Role where
  | user
  | assistant
  | tool
deriving DecidableEq, Repr

/-- The tool-call record stored on an assistant history message
(shape built at `executePrompt`, lines 478-485: `{id, type:"function",
function:{name, arguments}}`; the constant `type` field is omitted). -/
structure HistToolCall where
  id : String
  fname : String
  farguments : String
deriving DecidableEq, Repr

/-- The source `AIMessage`: role, nullable content, optional tool
calls, optional tool_call_id. -/
structure AIMessage where
  role : Role
  content : Option String
  tool_calls : Option (List HistToolCall)
  tool_call_id : Option String
deriving DecidableEq, Repr

/-- A content block of a `ToolExecutionResponse` (`{type, text}`). -/
structure ContentItem where
  ctype : String
  text : String
deriving DecidableEq, Repr

/-- The source `ToolExecutionResponse`: `{content: any[], error?}`.
`content` is optional because the source guards with `result.content?.`. -/
structure ToolExecutionResponse where
  content : Option (List ContentItem)
  error : Option String
deriving DecidableEq, Repr

/-- The source `ToolCall` `{id, name, input}`.  The structured `input` value is
represented by an abstract string. -/
structure ToolCall where
  id : String
  name : String
  input : String
deriving DecidableEq, Repr

/-- The canonical `AIEvent` union.  `message_update` carries the text of the
single `{type:"text", text}` block the adapters emit. -/
inductive AIEvent where
  | message_start
  | message_update (text : String)
  | tool_use (tc : ToolCall)
  | tool_result (tc : ToolCall) (result : ToolExecutionResponse)
  | message_complete (content : String)
  | error (msg : String)
deriving DecidableEq, Repr

/-- The source `AITool` `{name, description, input_schema}` (schema kept abstract). -/
structure AITool where
  name : String
  description : String
  input_schema : String
deriving DecidableEq, Repr

/-- The orchestrator side `ToolDescriptor`. -/
structure ToolDescriptor where
  name : String
  label : String
  description : String
  parameters : String
deriving DecidableEq, Repr

/-- A `registeredTools` entry: `{extensionId, descriptor}`. -/
structure ToolRegistration where
  extensionId : String
  descriptor : ToolDescriptor
deriving DecidableEq, Repr

/-! ### String-keyed map (the JS `Map` used by the source)

Only `get` / `set` / `delete` / `has` / `clear` are used by the source.
`mapSet` models overwrite-on-set; lookup returns the last value set. -/

def mapGet {α : Type} (m : List (String × α)) (k : String) : Option α :=
  (m.find? (fun p => p.1 == k)).map (fun p => p.2)

def mapSet {α : Type} (m : List (String × α)) (k : String) (v : α) :
    List (String × α) :=
  m.filter (fun p => !(p.1 == k)) ++ [(k, v)]

def mapDelete {α : Type} (m : List (String × α)) (k : String) :
    List (String × α) :=
  m.filter (fun p => !(p.1 == k))

/-- Models `Map.clear()`: empties the map regardless of its previous contents. -/
def mapClear {α : Type} (_ : List (String × α)) : List (String × α) := []

/-- The helper `normalizeToolName(name) = name.replace(/\./g, "_")` — the identical
private helper appears in both `OpenAIAdapter` and `ToolRegistry`. -/
def normalizeToolName (name : String) : String :=
  ⟨name.data.map fun c => if c = '.' then '_' else c⟩

/-- Models `error.message || "Unknown error occurred"`: the empty message is falsy
and falls back to the fixed string. -/
def errMsg (e : String) : String :=
  if e = "" then "Unknown error occurred" else e

/-! ### Anthropic adapter (`AnthropicAdapter.sendMessage`, lines 59-114) -/

/-- A block of the Anthropic response `content` array. -/
inductive AnthropicBlock where
  | text (s : String)
  | tool_use (id : String) (name : String) (input : String)
deriving DecidableEq, Repr

/-- The block scan of lines 79-92: concatenate text blocks, collect
tool_use blocks in order. -/
def anthropicCollect (blocks : List AnthropicBlock) : String × List ToolCall :=
  blocks.foldl
    (fun acc b =>
      match b with
      | .text s => (acc.1 ++ s, acc.2)
      | .tool_use id name input => (acc.1, acc.2 ++ [⟨id, name, input⟩]))
    ("", [])

/-- Events emitted after a successful provider call (lines 94-107). -/
def anthropicBody (blocks : List AnthropicBlock) : List AIEvent :=
  let textContent := (anthropicCollect blocks).1
  let toolCalls := (anthropicCollect blocks).2
  (if textContent = "" then [] else [.message_update textContent]) ++
    (if toolCalls.length > 0 then toolCalls.map .tool_use
     else [.message_complete textContent])

/-- The try-block of `sendMessage` as (events after `message_start`,
thrown exception if any).  The provider call
`this.client.messages.create(...)` is the input: `.error e` models its
rejection with message `e`. -/
def anthropicRun (resp : Except String (List AnthropicBlock)) :
    List AIEvent × Option String :=
  match resp with
  | .ok blocks => (anthropicBody blocks, none)
  | .error e => ([], some e)

/-- Full `AnthropicAdapter.sendMessage`: `message_start` first, then the
body; the catch appends exactly one `error` event. -/
def anthropicSendMessage (resp : Except String (List AnthropicBlock)) :
    List AIEvent :=
  .message_start ::
    ((anthropicRun resp).1 ++
      match (anthropicRun resp).2 with
      | some e => [.error (errMsg e)]
      | none => [])

/-- The message shape passed to the Anthropic SDK (lines 72-75).  The
TypeScript `m.role as "user" | "assistant"` is a compile-time cast with no
runtime effect, so the field keeps the full canonical `Role`. -/
structure AnthropicMessageParam where
  role : Role
  content : String
deriving DecidableEq, Repr

/-- Conversion `messages.map(m => ({role: m.role as ..., content: m.content || ""}))`. -/
def anthropicConvertMessages (messages : List AIMessage) :
    List AnthropicMessageParam :=
  messages.map fun m => { role := m.role, content := m.content.getD "" }

/-! ### Google adapter (`GoogleAdapter.sendMessage`, lines 270-308) -/

/-- The try-block: the chained external calls (`getGenerativeModel`,
`startChat`, `sendMessage`, `response.text()`) are modelled as a single
input producing the final text or throwing. -/
def googleRun (result : Except String String) : List AIEvent × Option String :=
  match result with
  | .ok text => ([.message_update text, .message_complete text], none)
  | .error e => ([], some e)

/-- Full `GoogleAdapter.sendMessage`. -/
def googleSendMessage (result : Except String String) : List AIEvent :=
  .message_start ::
    ((googleRun result).1 ++
      match (googleRun result).2 with
      | some e => [.error (errMsg e)]
      | none => [])

/-! ### OpenAI adapter (`OpenAIAdapter.sendMessage`, lines 135-258) -/

/-- One element of `delta.tool_calls`: `{index, id?, function?:{name?,
arguments?}}`.  Absent fields are `none`; the source's truthiness checks
also skip empty strings. -/
structure ToolCallDelta where
  index : Nat
  id : Option String
  fname : Option String
  fargs : Option String
deriving DecidableEq, Repr

/-- Models `chunk.choices[0]?.delta`: nullable content fragment plus optional
tool-call delta array. -/
structure Delta where
  content : Option String
  tool_calls : Option (List ToolCallDelta)
deriving DecidableEq, Repr

/-- A stream chunk; `none` models a chunk whose `choices[0]?.delta` is
absent (`if (!delta) continue`). -/
abbrev Chunk := Option Delta

/-- An accumulating entry of the local `toolCalls` array:
`{id, type:"function", function:{name, arguments}}` (constant `type`
omitted). -/
structure OAcc where
  id : String
  fname : String
  fargs : String
deriving DecidableEq, Repr

/-- Reading `toolCalls[index]`, where a JS array read out of range or at a hole
yields `undefined` (`none`). -/
def getSlot (l : List (Option OAcc)) (i : Nat) : Option OAcc :=
  l.getD i none

/-- Assignment `toolCalls[index] = v`: assigning past the end of a JS array creates
holes (`none`) for the skipped positions. -/
def setSlot : Nat → List (Option OAcc) → OAcc → List (Option OAcc)
  | 0, l, v => some v :: l.tail
  | i + 1, l, v => l.head?.getD none :: setSlot i l.tail v

/-- The per-delta accumulation of lines 209-232: create the entry if the
slot is empty (`id: toolCallDelta.id || ""`), then append the truthy
fragments. -/
def applyToolCallDelta (tcs : List (Option OAcc)) (d : ToolCallDelta) :
    List (Option OAcc) :=
  let cur :=
    match getSlot tcs d.index with
    | none => { id := (d.id.getD ""), fname := "", fargs := "" : OAcc }
    | some c => c
  let cur :=
    match d.id with
    | some i => if i = "" then cur else { cur with id := i }
    | none => cur
  let cur :=
    match d.fname with
    | some n => if n = "" then cur else { cur with fname := cur.fname ++ n }
    | none => cur
  let cur :=
    match d.fargs with
    | some a => if a = "" then cur else { cur with fargs := cur.fargs ++ a }
    | none => cur
  setSlot d.index tcs cur

/-- Loop state of the `for await` over the stream. -/
structure OState where
  accumulatedContent : String
  toolCalls : List (Option OAcc)
  events : List AIEvent
deriving DecidableEq, Repr

/-- The `if (delta.content)` step (lines 200-206): a truthy content
fragment extends `accumulatedContent` and emits a cumulative
`message_update`. -/
def processContent (s : OState) (content : Option String) : OState :=
  match content with
  | some t =>
      if t = "" then s
      else
        { s with
            accumulatedContent := s.accumulatedContent ++ t
            events := s.events ++ [.message_update (s.accumulatedContent ++ t)] }
  | none => s

/-- One iteration of the stream loop (lines 195-234): the content step,
then the tool-call deltas folded into the slots. -/
def processChunk (s : OState) (c : Chunk) : OState :=
  match c with
  | none => s
  | some delta =>
    let s := processContent s delta.content
    match delta.tool_calls with
    | some ds => { s with toolCalls := ds.foldl applyToolCallDelta s.toolCalls }
    | none => s

/-- The `toolNameMap` rebuilt inside `sendMessage` (lines 144-159): cleared,
then one `set(normalizedName, t.name)` per catalog tool. -/
def buildToolNameMap (prevMap : List (String × String)) (tools : List AITool) :
    List (String × String) :=
  tools.foldl (fun m t => mapSet m (normalizeToolName t.name) t.name)
    (mapClear prevMap)

/-- The final loop over accumulated tool calls (lines 236-248): look up the
original name (`toolNameMap.get(...) || raw`), parse the concatenated
arguments (`jparse` models `JSON.parse`; `.error` is the thrown parse
failure), and emit a `tool_use` per entry.  Reading a hole throws a
`TypeError` at `toolCall.function.name`.  Events already emitted before a
throw are kept, paired with the exception. -/
def finalizeToolCalls (tmap : List (String × String))
    (jparse : String → Except String String) :
    List (Option OAcc) → List AIEvent × Option String
  | [] => ([], none)
  | none :: _ =>
      ([], some "Cannot read properties of undefined (reading function)")
  | some tc :: rest =>
    let originalName := (mapGet tmap tc.fname).getD tc.fname
    match jparse tc.fargs with
    | .error e => ([], some e)
    | .ok input =>
      (.tool_use ⟨tc.id, originalName, input⟩ ::
          (finalizeToolCalls tmap jparse rest).1,
        (finalizeToolCalls tmap jparse rest).2)

/-- External outcome of the OpenAI streaming call: either the `create` call
rejects, or it yields a chunk sequence followed by an optional failure of
the stream iteration itself. -/
structure OpenAIOutcome where
  createResult : Except String (List Chunk)
  streamErr : Option String
deriving Repr

/-- The try-block of `OpenAIAdapter.sendMessage` as (events after
`message_start`, thrown exception if any). -/
def openaiRun (prevMap : List (String × String)) (tools : List AITool)
    (jparse : String → Except String String) (inp : OpenAIOutcome) :
    List AIEvent × Option String :=
  let tmap := buildToolNameMap prevMap tools
  match inp.createResult with
  | .error e => ([], some e)
  | .ok chunks =>
    let s := chunks.foldl processChunk ⟨"", [], []⟩
    match inp.streamErr with
    | some e => (s.events, some e)
    | none =>
      if s.toolCalls.length > 0 then
        (s.events ++ (finalizeToolCalls tmap jparse s.toolCalls).1,
          (finalizeToolCalls tmap jparse s.toolCalls).2)
      else
        (s.events ++ [.message_complete s.accumulatedContent], none)

/-- Full `OpenAIAdapter.sendMessage`: `message_start` first, then the body;
the catch appends exactly one `error` event. -/
def openaiSendMessage (prevMap : List (String × String)) (tools : List AITool)
    (jparse : String → Except String String) (inp : OpenAIOutcome) :
    List AIEvent :=
  .message_start ::
    ((openaiRun prevMap tools jparse inp).1 ++
      match (openaiRun prevMap tools jparse inp).2 with
      | some e => [.error (errMsg e)]
      | none => [])

/-! ### Agent loop: the `executePrompt` event handler (lines 454-474) -/

/-- Observations of one turn's event callback: the buffered
`pendingToolCalls`, the events forwarded to the caller's `onEvent`, and the
history messages pushed by the handler itself. -/
structure TurnObs where
  pending : List ToolCall
  forwarded : List AIEvent
  appends : List AIMessage
deriving DecidableEq, Repr

/-- One step of the handler: `tool_use` is buffered and forwarded;
everything else is forwarded, and `message_complete` additionally pushes an
assistant message with its content onto history. -/
def handleTurnEvent (s : TurnObs) (e : AIEvent) : TurnObs :=
  match e with
  | .tool_use tc =>
      { s with
          pending := s.pending ++ [tc]
          forwarded := s.forwarded ++ [.tool_use tc] }
  | .message_complete c =>
      { s with
          forwarded := s.forwarded ++ [.message_complete c]
          appends := s.appends ++
            [{ role := .assistant, content := some c, tool_calls := none,
               tool_call_id := none }] }
  | e => { s with forwarded := s.forwarded ++ [e] }

/-- The handler applied to a whole turn's event sequence. -/
def runTurnEvents (events : List AIEvent) : TurnObs :=
  events.foldl handleTurnEvent ⟨[], [], []⟩

/-! ### Agent loop: tool-call execution (`executeTool`, lines 520-585,
and the tool phase of `executePrompt`, lines 477-516) -/

/-- The `checkPermission` result from the external `PermissionManager`
(package `aikit-common`). -/
structure PermissionCheck where
  allowed : Bool
  requiresPrompt : Bool
deriving DecidableEq, Repr

/-- The `{url?, tabId?}` context supplied by `getToolContext`. -/
structure ToolContext where
  url : Option String
  tabId : Option Nat
deriving DecidableEq, Repr

/-- Outcome of the interactive permission wait for one tool call: either a
`PERMISSION_RESPONSE` with its `granted` flag arrives, or the 60-second
timer fires first. -/
inductive PromptOutcome where
  | response (granted : Bool)
  | timeout
deriving DecidableEq, Repr

/-- The `TOOL_EXECUTE` message sent to the owning extension
(`browser.runtime.sendMessage(registration.extensionId, {...})`). -/
structure ToolExecutionRequest where
  extensionId : String
  toolName : String
  params : String
  toolCallId : String
deriving DecidableEq, Repr

/-- The external collaborators of `executeTool`, as oracles: the browser
tab context, the `PermissionManager` lookup, the interactive surface's
behaviour for this call, and the owning extension's reply (`.error` models
a rejected `sendMessage`). -/
structure ExecEnv where
  getToolContext : String → ToolContext
  checkPermission : String → ToolContext → PermissionCheck
  promptOutcome : ToolCall → PromptOutcome
  ownerResponse : ToolExecutionRequest → Except String ToolExecutionResponse

/-- A synthetic single-text-block result `{content:[{type:"text", text}],
error}`. -/
def textResult (t : String) (err : Option String) : ToolExecutionResponse :=
  { content := some [{ ctype := "text", text := t }], error := err }

/-- The result of `requestPermissionFromUser` as seen by its awaiter
(lines 627-641): a matching response resolves with its `granted` value;
the 60-second timer rejects with `Error("Permission request timeout")`.
Either path removes the pending entry first (see `pendingCreate` /
`timeoutFire` below for the map bookkeeping). -/
def requestPermissionResult (o : PromptOutcome) : Except String Bool :=
  match o with
  | .response g => .ok g
  | .timeout => .error "Permission request timeout"

/-- Embeds `ToolRegistry.executeTool`.  Returns the `TOOL_EXECUTE` messages sent
to owners together with either the response returned to the loop (`.ok`)
or the exception that escapes it (`.error`).  Note the source's try/catch
wraps only the owner dispatch, not the permission wait. -/
def executeTool (registry : List (String × ToolRegistration)) (env : ExecEnv)
    (tc : ToolCall) :
    List ToolExecutionRequest × Except String ToolExecutionResponse :=
  match mapGet registry tc.name with
  | none =>
      ([], .ok (textResult ("Unknown tool: " ++ tc.name)
        (some ("Unknown tool: " ++ tc.name))))
  | some registration =>
    let context := env.getToolContext tc.name
    let check := env.checkPermission tc.name context
    if !check.allowed && !check.requiresPrompt then
      ([], .ok (textResult ("Permission denied for tool: " ++ tc.name)
        (some "Permission denied")))
    else
      let grantedRes : Except String Bool :=
        if check.requiresPrompt then requestPermissionResult (env.promptOutcome tc)
        else .ok true
      match grantedRes with
      | .error e => ([], .error e)
      | .ok granted =>
        if !granted then
          ([], .ok (textResult ("User denied permission for tool: " ++ tc.name)
            (some "User denied permission")))
        else
          let req : ToolExecutionRequest :=
            { extensionId := registration.extensionId, toolName := tc.name,
              params := tc.input, toolCallId := tc.id }
          match env.ownerResponse req with
          | .error e =>
              ([req], .ok (textResult ("Error: " ++ e) (some e)))
          | .ok response =>
            match response.error with
            | some err =>
                if err = "" then ([req], .ok response)
                else ([req], .ok (textResult ("Error: " ++ err) (some err)))
            | none => ([req], .ok response)

/-- JS `Array.prototype.join(sep)`: the separator goes between elements. -/
def joinSep (sep : String) : List String → String
  | [] => ""
  | [x] => x
  | x :: y :: rest => x ++ sep ++ joinSep sep (y :: rest)

/-- Models `result.content?.map(c => c.text).join(" ") || "Tool executed"`: absent
content, or a join that comes out as the empty (falsy) string, falls back
to the placeholder. -/
def resultText (r : ToolExecutionResponse) : String :=
  match r.content with
  | none => "Tool executed"
  | some blocks =>
    let s := joinSep " " (blocks.map (fun c => c.text))
    if s = "" then "Tool executed" else s

/-- The assistant history message recording a turn's buffered calls
(lines 478-492): content `null`, one `HistToolCall` per buffered call with
the *normalized* function name and stringified input (`jstr` models
`JSON.stringify`). -/
def mkAssistantToolCallMsg (jstr : String → String) (pending : List ToolCall) :
    AIMessage :=
  { role := .assistant, content := none,
    tool_calls := some (pending.map fun tc =>
      ⟨tc.id, normalizeToolName tc.name, jstr tc.input⟩),
    tool_call_id := none }

/-- Effects of the tool phase: history messages appended (in order),
`tool_result` events forwarded, `TOOL_EXECUTE` requests sent, and the
exception aborting the loop if one was thrown. -/
structure ToolPhaseOut where
  appends : List AIMessage
  events : List AIEvent
  requests : List ToolExecutionRequest
  failure : Option String
deriving DecidableEq, Repr

/-- The `for (const toolCall of pendingToolCalls)` loop (lines 494-513):
each call is dispatched and its effects recorded before the next call is
examined; an exception thrown by `executeTool` aborts the remaining
iterations. -/
def runToolCallLoop (registry : List (String × ToolRegistration))
    (env : ExecEnv) : List ToolCall → ToolPhaseOut
  | [] => ⟨[], [], [], none⟩
  | tc :: rest =>
    match (executeTool registry env tc).2 with
    | .error e => ⟨[], [], (executeTool registry env tc).1, some e⟩
    | .ok result =>
      let out := runToolCallLoop registry env rest
      ⟨{ role := .tool, content := some (resultText result), tool_calls := none,
          tool_call_id := some tc.id } :: out.appends,
        .tool_result tc result :: out.events,
        (executeTool registry env tc).1 ++ out.requests,
        out.failure⟩

/-- The whole `if (pendingToolCalls.length > 0)` block (lines 477-516):
push the single assistant tool-call message, then run the dispatch loop. -/
def runToolPhase (jstr : String → String)
    (registry : List (String × ToolRegistration)) (env : ExecEnv)
    (pending : List ToolCall) : ToolPhaseOut :=
  if pending.length > 0 then
    let out := runToolCallLoop registry env pending
    { out with appends := mkAssistantToolCallMsg jstr pending :: out.appends }
  else ⟨[], [], [], none⟩

/-! ### Pending-permission bookkeeping (lines 607-671) -/

/-- A `pendingPermissionRequests` entry (the fields stored at line 628
besides the continuations). -/
structure PendingEntry where
  toolName : String
  domain : Option String
deriving DecidableEq, Repr

/-- Models `this.pendingPermissionRequests.set(requestId, {...})` (line 628). -/
def pendingCreate (st : List (String × PendingEntry)) (requestId : String)
    (e : PendingEntry) : List (String × PendingEntry) :=
  mapSet st requestId e

/-- The timer body (lines 635-640): if the entry is still present, delete
it and reject; otherwise do nothing.  The boolean records whether the
rejection fired. -/
def timeoutFire (st : List (String × PendingEntry)) (requestId : String) :
    List (String × PendingEntry) × Bool :=
  if (mapGet st requestId).isSome then (mapDelete st requestId, true)
  else (st, false)

/-- The `PermissionResponseMessage` fields used by the handler. -/
structure PermissionResponseMessage where
  requestId : String
  granted : Bool
  remember : Bool
  scope : Option String
deriving DecidableEq, Repr

/-- Result of `handlePermissionResponse`: the updated pending map, the
value delivered to the waiting continuation (if any), the
`storePermission(toolName, decision, domain)` calls issued, and whether
the unknown-id warning was logged. -/
structure HPROut where
  state : List (String × PendingEntry)
  resolved : Option Bool
  storeActions : List (String × String × Option String)
  warned : Bool
deriving DecidableEq, Repr

/-- Embeds `ToolRegistry.handlePermissionResponse` (lines 644-671). -/
def handlePermissionResponse (st : List (String × PendingEntry))
    (r : PermissionResponseMessage) : HPROut :=
  match mapGet st r.requestId with
  | none => ⟨st, none, [], true⟩
  | some pending =>
    let st' := mapDelete st r.requestId
    let storeActions :=
      if r.granted && r.remember then
        [(pending.toolName, "always_allow",
          if r.scope = some "domain" then pending.domain else none)]
      else if !r.granted && r.remember then
        [(pending.toolName, "always_deny",
          if r.scope = some "domain" then pending.domain else none)]
      else []
    ⟨st', some r.granted, storeActions, false⟩

/-! ### Event-kind predicates and the turn-shape property -/

def isStart : AIEvent → Bool
  | .message_start => true
  | _ => false

def isUpdate : AIEvent → Bool
  | .message_update _ => true
  | _ => false

def isToolUse : AIEvent → Bool
  | .tool_use _ => true
  | _ => false

def isComplete : AIEvent → Bool
  | .message_complete _ => true
  | _ => false

def isError : AIEvent → Bool
  | .error _ => true
  | _ => false

/-- Does the sequence end in a `message_complete`? -/
def lastIsComplete (evs : List AIEvent) : Bool :=
  match evs.getLast? with
  | some (.message_complete _) => true
  | _ => false

/-- Does the sequence end in a `tool_use`? -/
def lastIsToolUse (evs : List AIEvent) : Bool :=
  match evs.getLast? with
  | some (.tool_use _) => true
  | _ => false

/-- The turn shape asserted by the spec: one leading `message_start`, then
either exactly one `message_complete` (and no `tool_use`) at the end, or at
least one `tool_use` (and no `message_complete`) at the end. -/
def goodTurn (evs : List AIEvent) : Prop :=
  evs.head? = some .message_start ∧
  evs.countP isStart = 1 ∧
  ((evs.countP isComplete = 1 ∧ evs.countP isToolUse = 0 ∧
      lastIsComplete evs = true) ∨
   (1 ≤ evs.countP isToolUse ∧ evs.countP isComplete = 0 ∧
      lastIsToolUse evs = true))

/-- The buffered tool calls of an event sequence. -/
def collectToolUses (evs : List AIEvent) : List ToolCall :=
  evs.filterMap fun e =>
    match e with
    | .tool_use tc => some tc
    | _ => none

/-- The assistant messages the handler pushes for `message_complete`
events. -/
def completeMsgs (evs : List AIEvent) : List AIMessage :=
  evs.filterMap fun e =>
    match e with
    | .message_complete c =>
        some { role := .assistant, content := some c, tool_calls := none,
               tool_call_id := none }
    | _ => none

lemma foldl_handleTurnEvent (evs : List AIEvent) (s : TurnObs) :
    evs.foldl handleTurnEvent s =
      ⟨s.pending ++ collectToolUses evs, s.forwarded ++ evs,
        s.appends ++ completeMsgs evs⟩ := by
  induction evs generalizing s with
  | nil => simp [collectToolUses, completeMsgs]
  | cons e rest ih =>
    cases e <;>
      simp [List.foldl_cons, handleTurnEvent, ih, collectToolUses,
        completeMsgs, List.filterMap_cons, List.append_assoc]

/-- The handler buffers exactly the `tool_use` events, forwards every event
unchanged, and appends exactly one assistant message per
`message_complete`. -/
lemma runTurnEvents_eq (evs : List AIEvent) :
    runTurnEvents evs = ⟨collectToolUses evs, evs, completeMsgs evs⟩ := by
  simp [runTurnEvents, foldl_handleTurnEvent]

/-! ### Shape lemmas about the adapters' event output -/

lemma lastIsComplete_concat (l : List AIEvent) (c : String) :
    lastIsComplete (l ++ [.message_complete c]) = true := by
  simp [lastIsComplete, List.getLast?_concat]

lemma lastIsToolUse_append (l evs : List AIEvent) (h : evs ≠ [])
    (hall : ∀ e ∈ evs, isToolUse e = true) :
    lastIsToolUse (l ++ evs) = true := by
  induction evs generalizing l with
  | nil => exact absurd rfl h
  | cons a rest ih =>
    cases rest with
    | nil =>
      have ha := hall a (by simp)
      cases a <;> simp [isToolUse] at ha ⊢
      simp [lastIsToolUse, List.getLast?_concat]
    | cons b r =>
      have := ih (l ++ [a]) (by simp)
        (fun e he => hall e (List.mem_cons_of_mem _ he))
      simpa [List.append_assoc] using this

lemma countP_eq_zero_of_updateOnly (p : AIEvent → Bool)
    (hp : ∀ t, p (.message_update t) = false) (evs : List AIEvent)
    (h : ∀ e ∈ evs, isUpdate e = true) : evs.countP p = 0 := by
  refine List.countP_eq_zero.mpr fun e he => ?_
  have := h e he
  cases e
  case message_update t => simp [hp]
  all_goals simp [isUpdate] at this

lemma countP_eq_zero_of_toolUseOnly (p : AIEvent → Bool)
    (hp : ∀ tc, p (.tool_use tc) = false) (evs : List AIEvent)
    (h : ∀ e ∈ evs, isToolUse e = true) : evs.countP p = 0 := by
  refine List.countP_eq_zero.mpr fun e he => ?_
  have := h e he
  cases e
  case tool_use tc => simp [hp]
  all_goals simp [isToolUse] at this

lemma countP_toolUse_of_toolUseOnly (evs : List AIEvent)
    (h : ∀ e ∈ evs, isToolUse e = true) : evs.countP isToolUse = evs.length :=
  List.countP_eq_length.mpr h

lemma processContent_events (s : OState) (content : Option String) :
    ∃ tail, (processContent s content).events = s.events ++ tail ∧
      ∀ e ∈ tail, isUpdate e = true := by
  match content with
  | none => exact ⟨[], by simp [processContent], by simp⟩
  | some t =>
    by_cases ht : t = ""
    · exact ⟨[], by simp [processContent, ht], by simp⟩
    · exact ⟨[.message_update (s.accumulatedContent ++ t)],
        by simp [processContent, ht], by simp [isUpdate]⟩

/-- Each stream chunk only appends `message_update` events. -/
lemma processChunk_events (s : OState) (c : Chunk) :
    ∃ tail, (processChunk s c).events = s.events ++ tail ∧
      ∀ e ∈ tail, isUpdate e = true := by
  match c with
  | none => exact ⟨[], by simp [processChunk], by simp⟩
  | some delta =>
    obtain ⟨tail, htail, hupd⟩ := processContent_events s delta.content
    match htc : delta.tool_calls with
    | none => exact ⟨tail, by simp [processChunk, htc, htail], hupd⟩
    | some ds => exact ⟨tail, by simp [processChunk, htc, htail], hupd⟩

/-- The stream fold only appends `message_update` events. -/
lemma foldl_processChunk_events (chunks : List Chunk) (s : OState) :
    ∃ tail, ((chunks.foldl processChunk s).events) = s.events ++ tail ∧
      ∀ e ∈ tail, isUpdate e = true := by
  induction chunks generalizing s with
  | nil => exact ⟨[], by simp, by simp⟩
  | cons c rest ih =>
    obtain ⟨t1, h1, hu1⟩ := processChunk_events s c
    obtain ⟨t2, h2, hu2⟩ := ih (processChunk s c)
    refine ⟨t1 ++ t2, ?_, ?_⟩
    · simp [List.foldl_cons, h2, h1, List.append_assoc]
    · intro e he
      rcases List.mem_append.mp he with h | h
      · exact hu1 e h
      · exact hu2 e h

/-- Any event list of the form `message_start :: updates ++ tail`, where
`tail` is a single `message_complete` or a non-empty run of `tool_use`
events, satisfies the spec's turn shape. -/
lemma goodTurn_of_shape (pre : List AIEvent)
    (hpre : ∀ e ∈ pre, isUpdate e = true) (tail : List AIEvent)
    (htail : (∃ c, tail = [.message_complete c]) ∨
      (tail ≠ [] ∧ ∀ e ∈ tail, isToolUse e = true)) :
    goodTurn (.message_start :: (pre ++ tail)) := by
  have hpre_start : pre.countP isStart = 0 :=
    countP_eq_zero_of_updateOnly _ (by simp [isStart]) _ hpre
  have hpre_complete : pre.countP isComplete = 0 :=
    countP_eq_zero_of_updateOnly _ (by simp [isComplete]) _ hpre
  have hpre_toolUse : pre.countP isToolUse = 0 :=
    countP_eq_zero_of_updateOnly _ (by simp [isToolUse]) _ hpre
  refine ⟨rfl, ?_, ?_⟩
  · rcases htail with ⟨c, rfl⟩ | ⟨hne, hall⟩
    · simp [List.countP_cons, List.countP_append, hpre_start, isStart,
        isComplete]
    · have : tail.countP isStart = 0 :=
        countP_eq_zero_of_toolUseOnly _ (by simp [isStart]) _ hall
      simp [List.countP_cons, List.countP_append, hpre_start, this, isStart]
  · rcases htail with ⟨c, rfl⟩ | ⟨hne, hall⟩
    · refine Or.inl ⟨?_, ?_, ?_⟩
      · simp [List.countP_cons, List.countP_append, hpre_complete,
          isComplete]
      · simp [List.countP_cons, List.countP_append, hpre_toolUse,
          isToolUse, isComplete]
      · have : AIEvent.message_start :: (pre ++ [.message_complete c]) =
            (AIEvent.message_start :: pre) ++ [.message_complete c] := by simp
        rw [this]
        exact lastIsComplete_concat _ c
    · refine Or.inr ⟨?_, ?_, ?_⟩
      · have htu : tail.countP isToolUse = tail.length :=
          countP_toolUse_of_toolUseOnly _ hall
        have hlen : 1 ≤ tail.length :=
          Nat.one_le_iff_ne_zero.mpr (by simpa [List.length_eq_zero] using hne)
        simp only [List.countP_cons, List.countP_append, hpre_toolUse, htu]
        simp [isToolUse]
        omega
      · have : tail.countP isComplete = 0 :=
          countP_eq_zero_of_toolUseOnly _ (by simp [isComplete]) _ hall
        simp [List.countP_cons, List.countP_append, hpre_complete, this,
          isComplete]
      · have heq : AIEvent.message_start :: (pre ++ tail) =
            (AIEvent.message_start :: pre) ++ tail := by simp
        rw [heq]
        exact lastIsToolUse_append _ _ hne hall

/-- A successful finalize pass emits one `tool_use` per accumulated call. -/
lemma finalizeToolCalls_length (tmap : List (String × String))
    (jparse : String → Except String String) (l : List (Option OAcc))
    (h : (finalizeToolCalls tmap jparse l).2 = none) :
    (finalizeToolCalls tmap jparse l).1.length = l.length := by
  induction l with
  | nil => simp [finalizeToolCalls]
  | cons a rest ih =>
    match a with
    | none => simp [finalizeToolCalls] at h
    | some tc =>
      match hj : jparse tc.fargs with
      | .error e => simp [finalizeToolCalls, hj] at h
      | .ok input =>
        simp only [finalizeToolCalls, hj] at h ⊢
        simpa using ih h

/-- Every event of a finalize pass is a `tool_use`, and its name is the
map lookup (fallback: the streamed name itself). -/
lemma finalizeToolCalls_events (tmap : List (String × String))
    (jparse : String → Except String String) (l : List (Option OAcc)) :
    ∀ e ∈ (finalizeToolCalls tmap jparse l).1,
      ∃ id fname input,
        e = .tool_use ⟨id, (mapGet tmap fname).getD fname, input⟩ := by
  induction l with
  | nil => simp [finalizeToolCalls]
  | cons a rest ih =>
    match a with
    | none => simp [finalizeToolCalls]
    | some tc =>
      match hj : jparse tc.fargs with
      | .error e => simp [finalizeToolCalls, hj]
      | .ok input =>
        intro e he
        simp only [finalizeToolCalls, hj, List.mem_cons] at he
        rcases he with he | he
        · exact ⟨tc.id, tc.fname, input, he⟩
        · exact ih e he

lemma finalizeToolCalls_toolUseOnly (tmap : List (String × String))
    (jparse : String → Except String String) (l : List (Option OAcc)) :
    ∀ e ∈ (finalizeToolCalls tmap jparse l).1, isToolUse e = true := by
  intro e he
  obtain ⟨id, fname, input, rfl⟩ := finalizeToolCalls_events tmap jparse l e he
  rfl

lemma anthropicBody_eq (blocks : List AnthropicBlock) :
    anthropicBody blocks =
      (if (anthropicCollect blocks).1 = "" then []
       else [.message_update (anthropicCollect blocks).1]) ++
      (if (anthropicCollect blocks).2.length > 0
       then (anthropicCollect blocks).2.map .tool_use
       else [.message_complete (anthropicCollect blocks).1]) := rfl

/-- A non-failing Anthropic turn has the spec's shape. -/
lemma anthropic_goodTurn (blocks : List AnthropicBlock) :
    goodTurn (anthropicSendMessage (.ok blocks)) := by
  have hmsg : anthropicSendMessage (.ok blocks) =
      .message_start :: (anthropicBody blocks ++ []) := rfl
  rw [hmsg, List.append_nil, anthropicBody_eq]
  apply goodTurn_of_shape
  · intro e he
    by_cases h1 : (anthropicCollect blocks).1 = ""
    · simp [h1] at he
    · simp [h1] at he
      subst he
      rfl
  · by_cases h2 : (anthropicCollect blocks).2.length > 0
    · refine Or.inr ⟨?_, ?_⟩
      · simp only [h2, if_pos]
        simp only [ne_eq, List.map_eq_nil_iff]
        intro hnil
        rw [hnil] at h2
        simp at h2
      · intro e he
        simp only [h2, if_pos, List.mem_map] at he
        obtain ⟨tc, _, rfl⟩ := he
        rfl
    · refine Or.inl ⟨(anthropicCollect blocks).1, ?_⟩
      simp [h2]

/-- A non-failing Google turn has the spec's shape. -/
lemma google_goodTurn (text : String) :
    goodTurn (googleSendMessage (.ok text)) := by
  have hmsg : googleSendMessage (.ok text) =
      .message_start ::
        ([.message_update text] ++ [.message_complete text]) := rfl
  rw [hmsg]
  apply goodTurn_of_shape
  · intro e he
    simp at he
    subst he
    rfl
  · exact Or.inl ⟨text, rfl⟩

/-- A non-failing OpenAI turn has the spec's shape. -/
lemma openai_goodTurn (prevMap : List (String × String)) (tools : List AITool)
    (jparse : String → Except String String) (inp : OpenAIOutcome)
    (h : (openaiRun prevMap tools jparse inp).2 = none) :
    goodTurn (openaiSendMessage prevMap tools jparse inp) := by
  have hmsg : openaiSendMessage prevMap tools jparse inp =
      .message_start :: (openaiRun prevMap tools jparse inp).1 := by
    simp [openaiSendMessage, h]
  rw [hmsg]
  obtain ⟨cr, se⟩ := inp
  match cr with
  | .error e => simp [openaiRun] at h
  | .ok chunks =>
    match se with
    | some e => simp [openaiRun] at h
    | none =>
      obtain ⟨pre, hpre_eq, hpre⟩ :=
        foldl_processChunk_events chunks ⟨"", [], []⟩
      simp only [OState.events] at hpre_eq
      rw [List.nil_append] at hpre_eq
      by_cases htc :
          (chunks.foldl processChunk ⟨"", [], []⟩).toolCalls.length > 0
      · have hrun : (openaiRun prevMap tools jparse ⟨.ok chunks, none⟩).1 =
            (chunks.foldl processChunk ⟨"", [], []⟩).events ++
              (finalizeToolCalls (buildToolNameMap prevMap tools) jparse
                (chunks.foldl processChunk ⟨"", [], []⟩).toolCalls).1 := by
          simp [openaiRun, htc]
        have hf : (finalizeToolCalls (buildToolNameMap prevMap tools) jparse
            (chunks.foldl processChunk ⟨"", [], []⟩).toolCalls).2 = none := by
          have h2 : (openaiRun prevMap tools jparse ⟨.ok chunks, none⟩).2 =
              (finalizeToolCalls (buildToolNameMap prevMap tools) jparse
                (chunks.foldl processChunk ⟨"", [], []⟩).toolCalls).2 := by
            simp [openaiRun, htc]
          rw [← h2]
          exact h
        rw [hrun, hpre_eq]
        apply goodTurn_of_shape pre hpre
        refine Or.inr ⟨?_, finalizeToolCalls_toolUseOnly _ _ _⟩
        have hlen := finalizeToolCalls_length
          (buildToolNameMap prevMap tools) jparse
          (chunks.foldl processChunk ⟨"", [], []⟩).toolCalls hf
        intro hnil
        rw [hnil] at hlen
        simp at hlen
        omega
      · have hrun : (openaiRun prevMap tools jparse ⟨.ok chunks, none⟩).1 =
            (chunks.foldl processChunk ⟨"", [], []⟩).events ++
              [.message_complete
                (chunks.foldl processChunk ⟨"", [], []⟩).accumulatedContent] := by
          simp [openaiRun, htc]
        rw [hrun, hpre_eq]
        apply goodTurn_of_shape pre hpre
        exact Or.inl ⟨_, rfl⟩

/-- C2.  For every adapter and every `sendMessage` call that does not take
the failure branch, the emitted sequence begins with exactly one
`message_start` and ends either with exactly one `message_complete` and no
`tool_use`, or with at least one `tool_use` and no `message_complete`. -/
theorem C2_turn_event_shape :
    (∀ blocks : List AnthropicBlock,
      goodTurn (anthropicSendMessage (.ok blocks))) ∧
    (∀ (prevMap : List (String × String)) (tools : List AITool)
        (jparse : String → Except String String) (inp : OpenAIOutcome),
      (openaiRun prevMap tools jparse inp).2 = none →
      goodTurn (openaiSendMessage prevMap tools jparse inp)) ∧
    (∀ text : String, goodTurn (googleSendMessage (.ok text))) :=
  ⟨anthropic_goodTurn, openai_goodTurn, google_goodTurn⟩

/-- Witness for C2: concrete non-failing runs of all three adapters. -/
theorem C2_turn_event_shape_witness :
    goodTurn (anthropicSendMessage (.ok
      [.text "hi", .tool_use "t1" "a.b" "{}"])) ∧
    goodTurn (openaiSendMessage [] [⟨"a.b", "d", "s"⟩] (fun s => .ok s)
      ⟨.ok [some ⟨some "hello", none⟩], none⟩) ∧
    goodTurn (googleSendMessage (.ok "done")) :=
  ⟨C2_turn_event_shape.1 [.text "hi", .tool_use "t1" "a.b" "{}"],
   C2_turn_event_shape.2.1 [] [⟨"a.b", "d", "s"⟩] (fun s => .ok s)
     ⟨.ok [some ⟨some "hello", none⟩], none⟩ rfl,
   C2_turn_event_shape.2.2 "done"⟩

/-! ### Error-event accounting (for C5) -/

/-- The common `message_start :: body ++ catch` wrapper emits exactly one
`error` event when the body threw and none otherwise, provided the body
itself emits no `error` events. -/
lemma countP_isError_wrap (body : List AIEvent) (f : Option String)
    (hbody : body.countP isError = 0) :
    (AIEvent.message_start ::
      (body ++ match f with
        | some e => [.error (errMsg e)]
        | none => [])).countP isError = if f.isSome then 1 else 0 := by
  match f with
  | some e => simp [List.countP_cons, List.countP_append, hbody, isError]
  | none => simp [List.countP_cons, List.countP_append, hbody, isError]

lemma anthropicBody_no_error (blocks : List AnthropicBlock) :
    (anthropicBody blocks).countP isError = 0 := by
  rw [anthropicBody_eq]
  by_cases h1 : (anthropicCollect blocks).1 = "" <;>
    by_cases h2 : (anthropicCollect blocks).2.length > 0 <;>
    simp [h1, h2, List.countP_cons, List.countP_append, List.countP_map,
      isError, Function.comp]

lemma anthropicRun_no_error (resp : Except String (List AnthropicBlock)) :
    ((anthropicRun resp).1).countP isError = 0 := by
  match resp with
  | .ok blocks => exact anthropicBody_no_error blocks
  | .error e => simp [anthropicRun]

lemma googleRun_no_error (result : Except String String) :
    ((googleRun result).1).countP isError = 0 := by
  match result with
  | .ok text => simp [googleRun, List.countP_cons, isError]
  | .error e => simp [googleRun]

lemma openaiRun_no_error (prevMap : List (String × String))
    (tools : List AITool) (jparse : String → Except String String)
    (inp : OpenAIOutcome) :
    ((openaiRun prevMap tools jparse inp).1).countP isError = 0 := by
  obtain ⟨cr, se⟩ := inp
  match cr with
  | .error e => simp [openaiRun]
  | .ok chunks =>
    obtain ⟨pre, hpre_eq, hpre⟩ := foldl_processChunk_events chunks ⟨"", [], []⟩
    simp only [OState.events] at hpre_eq
    rw [List.nil_append] at hpre_eq
    have hev : ((chunks.foldl processChunk ⟨"", [], []⟩).events).countP isError
        = 0 := by
      rw [hpre_eq]
      exact countP_eq_zero_of_updateOnly _ (by simp [isError]) _ hpre
    match se with
    | some e => simpa [openaiRun] using hev
    | none =>
      by_cases htc :
          (chunks.foldl processChunk ⟨"", [], []⟩).toolCalls.length > 0
      · have hfin : ((finalizeToolCalls (buildToolNameMap prevMap tools)
            jparse (chunks.foldl processChunk ⟨"", [], []⟩).toolCalls).1).countP
              isError = 0 :=
          countP_eq_zero_of_toolUseOnly _ (by simp [isError]) _
            (finalizeToolCalls_toolUseOnly _ _ _)
        simp [openaiRun, htc, List.countP_append, hev, hfin]
      · simp [openaiRun, htc, List.countP_append, hev, List.countP_cons,
          isError]

/-- C5.  On any failure of the provider call or of a processing step, each
adapter emits exactly one `error` event (and none when no failure occurs);
the call always returns its event list — the embedding is a total
function, so no exception escapes to the caller. -/
theorem C5_failure_single_error_event :
    (∀ resp, (anthropicSendMessage resp).countP isError =
      if (anthropicRun resp).2.isSome then 1 else 0) ∧
    (∀ (prevMap : List (String × String)) (tools : List AITool)
        (jparse : String → Except String String) (inp : OpenAIOutcome),
      (openaiSendMessage prevMap tools jparse inp).countP isError =
        if (openaiRun prevMap tools jparse inp).2.isSome then 1 else 0) ∧
    (∀ result, (googleSendMessage result).countP isError =
      if (googleRun result).2.isSome then 1 else 0) := by
  refine ⟨fun resp => ?_, fun prevMap tools jparse inp => ?_, fun result => ?_⟩
  · exact countP_isError_wrap _ _ (anthropicRun_no_error resp)
  · exact countP_isError_wrap _ _ (openaiRun_no_error prevMap tools jparse inp)
  · exact countP_isError_wrap _ _ (googleRun_no_error result)

/-! ### Mutual exclusion of `tool_use` and `message_complete` (for C4) -/

lemma completeMsgs_eq_nil {evs : List AIEvent}
    (h : evs.countP isComplete = 0) : completeMsgs evs = [] := by
  refine List.filterMap_eq_nil_iff.mpr fun e he => ?_
  have := List.countP_eq_zero.mp h e he
  cases e <;> simp [isComplete] at this ⊢

lemma anthropic_exclusive (resp : Except String (List AnthropicBlock))
    (h : 0 < (anthropicSendMessage resp).countP isToolUse) :
    (anthropicSendMessage resp).countP isComplete = 0 := by
  match resp with
  | .error e =>
    simp [anthropicSendMessage, anthropicRun, List.countP_cons, isToolUse]
      at h
  | .ok blocks =>
    have hmsg : anthropicSendMessage (.ok blocks) =
        .message_start :: (anthropicBody blocks ++ []) := rfl
    rw [hmsg, List.append_nil, anthropicBody_eq] at h ⊢
    by_cases h2 : (anthropicCollect blocks).2.length > 0
    · by_cases h1 : (anthropicCollect blocks).1 = "" <;>
        simp [h1, h2, List.countP_cons, List.countP_append, List.countP_map,
          isComplete, Function.comp]
    · by_cases h1 : (anthropicCollect blocks).1 = "" <;>
        simp [h1, h2, List.countP_cons, List.countP_append, List.countP_map,
          isToolUse, Function.comp] at h

lemma google_no_toolUse (result : Except String String) :
    (googleSendMessage result).countP isToolUse = 0 := by
  match result with
  | .ok text =>
    simp [googleSendMessage, googleRun, List.countP_cons, isToolUse]
  | .error e =>
    simp [googleSendMessage, googleRun, List.countP_cons, isToolUse]

lemma openai_exclusive (prevMap : List (String × String))
    (tools : List AITool) (jparse : String → Except String String)
    (inp : OpenAIOutcome)
    (h : 0 < (openaiSendMessage prevMap tools jparse inp).countP isToolUse) :
    (openaiSendMessage prevMap tools jparse inp).countP isComplete = 0 := by
  obtain ⟨cr, se⟩ := inp
  match cr with
  | .error e =>
    simp [openaiSendMessage, openaiRun, List.countP_cons, List.countP_append,
      isToolUse] at h
  | .ok chunks =>
    obtain ⟨pre, hpre_eq, hpre⟩ := foldl_processChunk_events chunks ⟨"", [], []⟩
    simp only [OState.events] at hpre_eq
    rw [List.nil_append] at hpre_eq
    have hevT : ((chunks.foldl processChunk ⟨"", [], []⟩).events).countP
        isToolUse = 0 := by
      rw [hpre_eq]
      exact countP_eq_zero_of_updateOnly _ (by simp [isToolUse]) _ hpre
    have hevC : ((chunks.foldl processChunk ⟨"", [], []⟩).events).countP
        isComplete = 0 := by
      rw [hpre_eq]
      exact countP_eq_zero_of_updateOnly _ (by simp [isComplete]) _ hpre
    match se with
    | some e =>
      simp [openaiSendMessage, openaiRun, List.countP_cons,
        List.countP_append, hevT, isToolUse] at h
    | none =>
      by_cases htc :
          (chunks.foldl processChunk ⟨"", [], []⟩).toolCalls.length > 0
      · have hfinC : ((finalizeToolCalls (buildToolNameMap prevMap tools)
            jparse (chunks.foldl processChunk ⟨"", [], []⟩).toolCalls).1).countP
              isComplete = 0 :=
          countP_eq_zero_of_toolUseOnly _ (by simp [isComplete]) _
            (finalizeToolCalls_toolUseOnly _ _ _)
        cases hfin : (finalizeToolCalls (buildToolNameMap prevMap tools)
            jparse (chunks.foldl processChunk ⟨"", [], []⟩).toolCalls).2 <;>
          simp [openaiSendMessage, openaiRun, htc, hfin, List.countP_cons,
            List.countP_append, hevC, hfinC, isComplete]
      · simp [openaiSendMessage, openaiRun, htc, List.countP_cons,
          List.countP_append, hevT, isToolUse] at h

/-- If the handler buffered at least one call, the turn's event stream
contained a `tool_use`. -/
lemma countP_toolUse_pos_of_pending {evs : List AIEvent}
    (h : (runTurnEvents evs).pending ≠ []) : 0 < evs.countP isToolUse := by
  rw [runTurnEvents_eq] at h
  refine List.countP_pos_iff.mpr ?_
  by_contra hno
  push_neg at hno
  refine h (List.filterMap_eq_nil_iff.mpr fun e he => ?_)
  have := hno e he
  cases e <;> simp [isToolUse] at this ⊢

/-- C4.  For every turn driven by one of the three adapters in which at
least one `tool_use` event is buffered, no `message_complete` event occurs
in that turn at all; every event is still forwarded to the caller
unchanged, and the handler appends no assistant text message to history —
the turn is recorded only by the tool-call-bearing assistant message built
afterwards (`mkAssistantToolCallMsg`). -/
theorem C4_no_complete_recorded_in_tool_turns (evs : List AIEvent)
    (hsrc : (∃ resp, evs = anthropicSendMessage resp) ∨
      (∃ prevMap tools jparse inp,
        evs = openaiSendMessage prevMap tools jparse inp) ∨
      (∃ result, evs = googleSendMessage result))
    (htool : (runTurnEvents evs).pending ≠ []) :
    evs.countP isComplete = 0 ∧
    (runTurnEvents evs).forwarded = evs ∧
    (runTurnEvents evs).appends = [] := by
  have hpos := countP_toolUse_pos_of_pending htool
  have hzero : evs.countP isComplete = 0 := by
    rcases hsrc with ⟨resp, rfl⟩ | ⟨pm, tools, jp, inp, rfl⟩ | ⟨result, rfl⟩
    · exact anthropic_exclusive resp hpos
    · exact openai_exclusive pm tools jp inp hpos
    · exact absurd hpos (by simp [google_no_toolUse])
  refine ⟨hzero, ?_, ?_⟩
  · rw [runTurnEvents_eq]
  · rw [runTurnEvents_eq]
    exact completeMsgs_eq_nil hzero

/-- Witness for C4: a concrete Anthropic turn with one tool call. -/
theorem C4_no_complete_recorded_in_tool_turns_witness :
    ((anthropicSendMessage (.ok [.tool_use "t1" "nav.click" "{}"])).countP
      isComplete = 0) ∧
    (runTurnEvents (anthropicSendMessage
      (.ok [.tool_use "t1" "nav.click" "{}"]))).forwarded =
        anthropicSendMessage (.ok [.tool_use "t1" "nav.click" "{}"]) ∧
    (runTurnEvents (anthropicSendMessage
      (.ok [.tool_use "t1" "nav.click" "{}"]))).appends = [] :=
  C4_no_complete_recorded_in_tool_turns _
    (Or.inl ⟨.ok [.tool_use "t1" "nav.click" "{}"], rfl⟩) (by decide)

/-! ### The tool phase records history strictly in arrival order (C6) -/

/-- The `tool` history message recorded for a call whose dispatch returned
normally (placeholder value in the unreachable thrown case). -/
def toolMsgOf (registry : List (String × ToolRegistration)) (env : ExecEnv)
    (tc : ToolCall) : AIMessage :=
  match (executeTool registry env tc).2 with
  | .ok r => { role := .tool, content := some (resultText r),
               tool_calls := none, tool_call_id := some tc.id }
  | .error _ => { role := .tool, content := none, tool_calls := none,
                  tool_call_id := none }

/-- The `tool_result` event forwarded for a call whose dispatch returned
normally (placeholder value in the unreachable thrown case). -/
def toolEventOf (registry : List (String × ToolRegistration)) (env : ExecEnv)
    (tc : ToolCall) : AIEvent :=
  match (executeTool registry env tc).2 with
  | .ok r => .tool_result tc r
  | .error e => .error e

lemma runToolCallLoop_ok (registry : List (String × ToolRegistration))
    (env : ExecEnv) :
    ∀ pending : List ToolCall,
      (∀ tc ∈ pending, ∃ r, (executeTool registry env tc).2 = .ok r) →
      runToolCallLoop registry env pending =
        ⟨pending.map (toolMsgOf registry env),
          pending.map (toolEventOf registry env),
          pending.flatMap (fun tc => (executeTool registry env tc).1),
          none⟩ := by
  intro pending hok
  induction pending with
  | nil => rfl
  | cons tc rest ih =>
    obtain ⟨r, hr⟩ := hok tc (by simp)
    have hrest := ih fun c hc => hok c (List.mem_cons_of_mem _ hc)
    simp only [runToolCallLoop, hr, hrest, toolMsgOf, toolEventOf,
      List.map_cons, List.flatMap_cons]

/-- C6.  When a turn buffers `n ≥ 1` calls and no dispatch throws, the tool
phase appends exactly one assistant message carrying all `n` calls with
`content = null`, followed by exactly `n` `tool`-role messages — one per
call, in arrival order, each referencing its call's id — and the
`TOOL_EXECUTE` requests are issued call-by-call in that same order. -/
theorem C6_tool_phase_order (jstr : String → String)
    (registry : List (String × ToolRegistration)) (env : ExecEnv)
    (pending : List ToolCall) (hne : pending ≠ [])
    (hok : ∀ tc ∈ pending, ∃ r, (executeTool registry env tc).2 = .ok r) :
    (runToolPhase jstr registry env pending).appends =
      mkAssistantToolCallMsg jstr pending ::
        pending.map (toolMsgOf registry env) ∧
    (mkAssistantToolCallMsg jstr pending).content = none ∧
    (mkAssistantToolCallMsg jstr pending).tool_calls =
      some (pending.map fun tc =>
        ⟨tc.id, normalizeToolName tc.name, jstr tc.input⟩) ∧
    (∀ tc ∈ pending, (toolMsgOf registry env tc).role = .tool ∧
      (toolMsgOf registry env tc).tool_call_id = some tc.id) ∧
    (runToolPhase jstr registry env pending).requests =
      pending.flatMap (fun tc => (executeTool registry env tc).1) ∧
    (runToolPhase jstr registry env pending).failure = none := by
  have hlen : pending.length > 0 := by
    cases pending with
    | nil => exact absurd rfl hne
    | cons a l => simp
  have hloop := runToolCallLoop_ok registry env pending hok
  have hphase : runToolPhase jstr registry env pending =
      { runToolCallLoop registry env pending with
          appends := mkAssistantToolCallMsg jstr pending ::
            (runToolCallLoop registry env pending).appends } := by
    simp [runToolPhase, hlen]
  refine ⟨?_, rfl, rfl, ?_, ?_, ?_⟩
  · rw [hphase, hloop]
  · intro tc htc
    obtain ⟨r, hr⟩ := hok tc htc
    simp [toolMsgOf, hr]
  · rw [hphase, hloop]
  · rw [hphase, hloop]

/-- Witness for C6: two registered tools dispatched in order. -/
theorem C6_tool_phase_order_witness :
    (runToolPhase id
      [("alpha", ⟨"ext1", ⟨"alpha", "A", "d", "{}"⟩⟩),
       ("beta", ⟨"ext2", ⟨"beta", "B", "d", "{}"⟩⟩)]
      ⟨fun _ => ⟨none, none⟩, fun _ _ => ⟨true, false⟩,
        fun _ => .response true,
        fun req => .ok ⟨some [⟨"text", "ran " ++ req.toolName⟩], none⟩⟩
      [⟨"1", "alpha", "{}"⟩, ⟨"2", "beta", "{}"⟩]).appends =
      mkAssistantToolCallMsg id [⟨"1", "alpha", "{}"⟩, ⟨"2", "beta", "{}"⟩] ::
        [⟨"1", "alpha", "{}"⟩, ⟨"2", "beta", "{}"⟩].map
          (toolMsgOf
            [("alpha", ⟨"ext1", ⟨"alpha", "A", "d", "{}"⟩⟩),
             ("beta", ⟨"ext2", ⟨"beta", "B", "d", "{}"⟩⟩)]
            ⟨fun _ => ⟨none, none⟩, fun _ _ => ⟨true, false⟩,
              fun _ => .response true,
              fun req => .ok ⟨some [⟨"text", "ran " ++ req.toolName⟩], none⟩⟩) :=
  (C6_tool_phase_order id
    [("alpha", ⟨"ext1", ⟨"alpha", "A", "d", "{}"⟩⟩),
     ("beta", ⟨"ext2", ⟨"beta", "B", "d", "{}"⟩⟩)]
    ⟨fun _ => ⟨none, none⟩, fun _ _ => ⟨true, false⟩,
      fun _ => .response true,
      fun req => .ok ⟨some [⟨"text", "ran " ++ req.toolName⟩], none⟩⟩
    [⟨"1", "alpha", "{}"⟩, ⟨"2", "beta", "{}"⟩]
    (by simp)
    (by
      intro tc htc
      simp only [List.mem_cons, List.not_mem_nil, or_false] at htc
      rcases htc with rfl | rfl
      · exact ⟨_, rfl⟩
      · exact ⟨_, rfl⟩)).1

/-! ### Unknown-tool dispatch (C7) -/

lemma append_ne_empty_left (p n : String) (hp : p ≠ "") : p ++ n ≠ "" := by
  intro h
  have hd := congrArg String.data h
  rw [String.data_append] at hd
  have hempty : ("" : String).data = [] := rfl
  rw [hempty] at hd
  rcases List.append_eq_nil.mp hd with ⟨h1, _⟩
  refine hp (String.ext ?_)
  rw [h1]

lemma resultText_textResult (t : String) (err : Option String) (ht : t ≠ "") :
    resultText (textResult t err) = t := by
  simp [resultText, textResult, joinSep, ht]

/-- C7.  A call whose name is not in the registry at dispatch time yields
the synthetic result with `error` set and content text
`"Unknown tool: <name>"`, sends no `TOOL_EXECUTE` message to any owner, and
the loop continues with the remaining buffered calls of the turn. -/
theorem C7_unknown_tool_synthetic_result
    (registry : List (String × ToolRegistration)) (env : ExecEnv)
    (tc : ToolCall) (rest : List ToolCall)
    (h : mapGet registry tc.name = none) :
    executeTool registry env tc =
      ([], .ok (textResult ("Unknown tool: " ++ tc.name)
        (some ("Unknown tool: " ++ tc.name)))) ∧
    runToolCallLoop registry env (tc :: rest) =
      ⟨{ role := .tool, content := some ("Unknown tool: " ++ tc.name),
          tool_calls := none, tool_call_id := some tc.id } ::
          (runToolCallLoop registry env rest).appends,
        .tool_result tc (textResult ("Unknown tool: " ++ tc.name)
          (some ("Unknown tool: " ++ tc.name))) ::
          (runToolCallLoop registry env rest).events,
        (runToolCallLoop registry env rest).requests,
        (runToolCallLoop registry env rest).failure⟩ := by
  have h1 : executeTool registry env tc =
      ([], .ok (textResult ("Unknown tool: " ++ tc.name)
        (some ("Unknown tool: " ++ tc.name)))) := by
    unfold executeTool
    rw [h]
  refine ⟨h1, ?_⟩
  have hne : ("Unknown tool: " ++ tc.name) ≠ "" :=
    append_ne_empty_left _ _ (by decide)
  simp only [runToolCallLoop, h1, resultText_textResult _ _ hne,
    List.nil_append]

/-- Witness for C7: an unregistered name in an empty registry. -/
theorem C7_unknown_tool_synthetic_result_witness :
    executeTool [] ⟨fun _ => ⟨none, none⟩, fun _ _ => ⟨true, false⟩,
        fun _ => .response true, fun _ => .ok ⟨none, none⟩⟩
      ⟨"1", "fs.list", "{}"⟩ =
      ([], .ok (textResult ("Unknown tool: " ++ "fs.list")
        (some ("Unknown tool: " ++ "fs.list")))) :=
  (C7_unknown_tool_synthetic_result [] ⟨fun _ => ⟨none, none⟩,
    fun _ _ => ⟨true, false⟩, fun _ => .response true,
    fun _ => .ok ⟨none, none⟩⟩ ⟨"1", "fs.list", "{}"⟩ [] rfl).1

/-! ### Permission timeout behaviour (C1) -/

/-- Two registered tools; the interactive surface never answers for
`alpha` (the 60-second timer fires) and grants `beta`. -/
def registryC1 : List (String × ToolRegistration) :=
  [("alpha", ⟨"ext1", ⟨"alpha", "Alpha", "d", "{}"⟩⟩),
   ("beta", ⟨"ext2", ⟨"beta", "Beta", "d", "{}"⟩⟩)]

def envC1 : ExecEnv :=
  ⟨fun _ => ⟨none, none⟩,
   fun _ _ => ⟨false, true⟩,
   fun tc => if tc.name = "alpha" then .timeout else .response true,
   fun _ => .ok ⟨some [⟨"text", "ok"⟩], none⟩⟩

/-- C1 evaluated at the failing input.  The pending entry *is* removed by
the timer (first conjunct), but the wait *rejects* instead of resolving as
a denial: `executeTool` returns the exception, and a two-call turn whose
first call times out aborts the tool phase — no denial `tool` message is
recorded, no `tool_result` is forwarded, the second buffered call is never
dispatched (no `TOOL_EXECUTE` request at all), and the loop ends with the
propagated failure instead of continuing. -/
theorem C1_timeout_rejects_and_aborts_loop :
    timeoutFire (pendingCreate [] "perm-1" ⟨"alpha", none⟩) "perm-1" =
      ([], true) ∧
    requestPermissionResult .timeout = .error "Permission request timeout" ∧
    (executeTool registryC1 envC1 ⟨"1", "alpha", "{}"⟩).2 =
      .error "Permission request timeout" ∧
    runToolPhase id registryC1 envC1
        [⟨"1", "alpha", "{}"⟩, ⟨"2", "beta", "{}"⟩] =
      ⟨[mkAssistantToolCallMsg id [⟨"1", "alpha", "{}"⟩, ⟨"2", "beta", "{}"⟩]],
        [], [], some "Permission request timeout"⟩ := by
  refine ⟨by decide, rfl, rfl, by decide⟩

/-! ### Normalized name in history vs original name at dispatch (C10) -/

lemma dotRepl_map_ne : ∀ l : List Char, '.' ∈ l →
    l.map (fun c => if c = '.' then '_' else c) ≠ l := by
  intro l hl
  induction l with
  | nil => simp at hl
  | cons a t ih =>
    simp only [List.map_cons]
    rcases List.mem_cons.mp hl with rfl | hm
    · intro h
      injection h with h1 _
      simp at h1
    · intro h
      injection h with _ h2
      exact ih hm h2

lemma normalizeToolName_ne_of_dot (name : String) (h : '.' ∈ name.data) :
    normalizeToolName name ≠ name := by
  intro he
  exact dotRepl_map_ne name.data h (congrArg String.data he)

/-- C10.  For a buffered call whose tool name contains `'.'`, the assistant
history message records the normalized function name (dots replaced by
underscores) — a different string from the registered name — while the
owner dispatch looks the tool up and addresses it under the original name,
and the forwarded `tool_use` event also carries the original name. -/
theorem C10_history_name_differs_from_dispatch_name (jstr : String → String)
    (registry : List (String × ToolRegistration)) (env : ExecEnv)
    (tc : ToolCall) (hdot : '.' ∈ tc.name.data)
    (reg : ToolRegistration) (hreg : mapGet registry tc.name = some reg)
    (hcheck : env.checkPermission tc.name (env.getToolContext tc.name) =
      ⟨true, false⟩)
    (r : ToolExecutionResponse)
    (hresp : env.ownerResponse
      ⟨reg.extensionId, tc.name, tc.input, tc.id⟩ = .ok r)
    (herr : r.error = none) :
    (mkAssistantToolCallMsg jstr [tc]).tool_calls =
      some [⟨tc.id, normalizeToolName tc.name, jstr tc.input⟩] ∧
    normalizeToolName tc.name ≠ tc.name ∧
    executeTool registry env tc =
      ([⟨reg.extensionId, tc.name, tc.input, tc.id⟩], .ok r) ∧
    (runTurnEvents [.tool_use tc]).forwarded = [.tool_use tc] ∧
    (runTurnEvents [.tool_use tc]).pending = [tc] := by
  refine ⟨rfl, normalizeToolName_ne_of_dot tc.name hdot, ?_, rfl, rfl⟩
  unfold executeTool
  rw [hreg]
  simp only [hcheck, Bool.not_true, Bool.not_false, Bool.false_and,
    Bool.false_eq_true, if_false, if_true, ite_false, ite_true]
  simp only [hresp, herr]

def envC10 : ExecEnv :=
  ⟨fun _ => ⟨none, none⟩,
   fun _ _ => ⟨true, false⟩,
   fun _ => .response true,
   fun _ => .ok ⟨some [⟨"text", "done"⟩], none⟩⟩

/-- Witness for C10: the dotted name `"a.b.c"`. -/
theorem C10_history_name_differs_from_dispatch_name_witness :
    normalizeToolName "a.b.c" ≠ "a.b.c" ∧
    executeTool [("a.b.c", ⟨"ext1", ⟨"a.b.c", "L", "d", "{}"⟩⟩)] envC10
        ⟨"1", "a.b.c", "{}"⟩ =
      ([⟨"ext1", "a.b.c", "{}", "1"⟩], .ok ⟨some [⟨"text", "done"⟩], none⟩) ∧
    (mkAssistantToolCallMsg id [⟨"1", "a.b.c", "{}"⟩]).tool_calls =
      some [⟨"1", normalizeToolName "a.b.c", id "{}"⟩] :=
  ⟨(C10_history_name_differs_from_dispatch_name id
      [("a.b.c", ⟨"ext1", ⟨"a.b.c", "L", "d", "{}"⟩⟩)] envC10
      ⟨"1", "a.b.c", "{}"⟩ (by decide) ⟨"ext1", ⟨"a.b.c", "L", "d", "{}"⟩⟩
      rfl rfl ⟨some [⟨"text", "done"⟩], none⟩ rfl rfl).2.1,
   (C10_history_name_differs_from_dispatch_name id
      [("a.b.c", ⟨"ext1", ⟨"a.b.c", "L", "d", "{}"⟩⟩)] envC10
      ⟨"1", "a.b.c", "{}"⟩ (by decide) ⟨"ext1", ⟨"a.b.c", "L", "d", "{}"⟩⟩
      rfl rfl ⟨some [⟨"text", "done"⟩], none⟩ rfl rfl).2.2.1,
   (C10_history_name_differs_from_dispatch_name id
      [("a.b.c", ⟨"ext1", ⟨"a.b.c", "L", "d", "{}"⟩⟩)] envC10
      ⟨"1", "a.b.c", "{}"⟩ (by decide) ⟨"ext1", ⟨"a.b.c", "L", "d", "{}"⟩⟩
      rfl rfl ⟨some [⟨"text", "done"⟩], none⟩ rfl rfl).1⟩

/-! ### Single resolution of permission responses (C8) -/

lemma mapGet_mapDelete_same {α : Type} (m : List (String × α)) (k : String) :
    mapGet (mapDelete m k) k = none := by
  unfold mapGet mapDelete
  rw [List.find?_eq_none.mpr]
  · rfl
  · intro p hp
    have := (List.mem_filter.mp hp).2
    simpa using this

lemma hpr_none {st : List (String × PendingEntry)}
    {r : PermissionResponseMessage} (hm : mapGet st r.requestId = none) :
    handlePermissionResponse st r = ⟨st, none, [], true⟩ := by
  unfold handlePermissionResponse
  rw [hm]

lemma hpr_some_state {st : List (String × PendingEntry)}
    {r : PermissionResponseMessage} {p : PendingEntry}
    (hm : mapGet st r.requestId = some p) :
    (handlePermissionResponse st r).state = mapDelete st r.requestId := by
  unfold handlePermissionResponse
  rw [hm]

lemma hpr_some_resolved {st : List (String × PendingEntry)}
    {r : PermissionResponseMessage} {p : PendingEntry}
    (hm : mapGet st r.requestId = some p) :
    (handlePermissionResponse st r).resolved = some r.granted := by
  unfold handlePermissionResponse
  rw [hm]

/-- C8.  A `PERMISSION_RESPONSE` resolves a pending wait at most once: a
response matching a pending `requestId` removes the entry and resolves the
wait with its `granted` value; a second response for the same id — or any
response with an unknown or stale id — is only logged: it resolves no
wait, issues no `storePermission` call, and leaves the pending map
unchanged. -/
theorem C8_response_resolves_at_most_once
    (st : List (String × PendingEntry)) (r : PermissionResponseMessage) :
    (∀ p, mapGet st r.requestId = some p →
      (handlePermissionResponse st r).resolved = some r.granted ∧
      mapGet (handlePermissionResponse st r).state r.requestId = none) ∧
    (mapGet st r.requestId = none →
      handlePermissionResponse st r = ⟨st, none, [], true⟩) ∧
    ((handlePermissionResponse
        (handlePermissionResponse st r).state r).resolved = none ∧
      (handlePermissionResponse
        (handlePermissionResponse st r).state r).storeActions = [] ∧
      (handlePermissionResponse
        (handlePermissionResponse st r).state r).state =
          (handlePermissionResponse st r).state ∧
      (handlePermissionResponse
        (handlePermissionResponse st r).state r).warned = true) := by
  have hgone : mapGet (handlePermissionResponse st r).state r.requestId =
      none := by
    cases hm : mapGet st r.requestId with
    | none => rw [hpr_none hm]; exact hm
    | some p => rw [hpr_some_state hm]; exact mapGet_mapDelete_same st _
  have hsecond : handlePermissionResponse
      (handlePermissionResponse st r).state r =
      ⟨(handlePermissionResponse st r).state, none, [], true⟩ := hpr_none hgone
  refine ⟨fun p hp => ⟨hpr_some_resolved hp, hgone⟩,
    fun hm => hpr_none hm, ?_⟩
  rw [hsecond]
  exact ⟨rfl, rfl, rfl, rfl⟩

def stC8 : List (String × PendingEntry) :=
  pendingCreate [] "req-1" ⟨"nav.click", some "example.com"⟩

def rC8 : PermissionResponseMessage := ⟨"req-1", true, true, some "domain"⟩

/-- Witness for C8: a concrete response resolved once, then replayed. -/
theorem C8_response_resolves_at_most_once_witness :
    ((handlePermissionResponse stC8 rC8).resolved = some true ∧
      mapGet (handlePermissionResponse stC8 rC8).state "req-1" = none) ∧
    ((handlePermissionResponse
        (handlePermissionResponse stC8 rC8).state rC8).resolved = none ∧
      (handlePermissionResponse
        (handlePermissionResponse stC8 rC8).state rC8).storeActions = [] ∧
      (handlePermissionResponse
        (handlePermissionResponse stC8 rC8).state rC8).state =
          (handlePermissionResponse stC8 rC8).state ∧
      (handlePermissionResponse
        (handlePermissionResponse stC8 rC8).state rC8).warned = true) :=
  ⟨(C8_response_resolves_at_most_once stC8 rC8).1
      ⟨"nav.click", some "example.com"⟩ (by decide),
    (C8_response_resolves_at_most_once stC8 rC8).2.2⟩

/-! ### Anthropic role conversion (C9) -/

/-- C9 evaluated on the code.  The Anthropic adapter's message conversion
keeps every role unchanged — the TypeScript `as "user" | "assistant"` cast
has no runtime effect — so a `tool`-role history message is forwarded to
the provider with role `tool` and its text coerced to a string, *not*
translated into a function-result construct keyed by the call id (the
`tool_call_id` is dropped entirely). -/
theorem C9_anthropic_tool_role_not_translated :
    (∀ ms : List AIMessage,
      (anthropicConvertMessages ms).map (fun m => m.role) =
        ms.map (fun m => m.role)) ∧
    anthropicConvertMessages [⟨.tool, some "42", none, some "call_1"⟩] =
      [⟨.tool, "42"⟩] :=
  ⟨fun ms => by simp [anthropicConvertMessages], rfl⟩

/-! ### Tool-name map lemmas (C3) -/

lemma mapGet_mapSet {α : Type} (m : List (String × α)) (k q : String)
    (v : α) :
    mapGet (mapSet m k v) q = if q = k then some v else mapGet m q := by
  induction m with
  | nil =>
    by_cases h : q = k
    · subst h
      simp [mapGet, mapSet, List.find?]
    · have hne : (k == q) = false := by
        simp only [beq_eq_false_iff_ne, ne_eq]
        exact fun he => h he.symm
      simp [mapGet, mapSet, List.find?, h, hne]
  | cons a m ih =>
    by_cases hak : a.1 = k
    · have hdrop : mapSet (a :: m) k v = mapSet m k v := by
        simp [mapSet, hak]
      rw [hdrop, ih]
      by_cases hq : q = k
      · rw [if_pos hq, if_pos hq]
      · have haq : (a.1 == q) = false := by
          simp only [beq_eq_false_iff_ne, ne_eq]
          rw [hak]
          exact fun he => hq he.symm
        have h2 : mapGet (a :: m) q = mapGet m q := by
          simp [mapGet, List.find?, haq]
        rw [if_neg hq, if_neg hq, h2]
    · have hkeep : mapSet (a :: m) k v = a :: mapSet m k v := by
        simp [mapSet, hak]
      rw [hkeep]
      by_cases haq : a.1 = q
      · have hq : ¬q = k := fun h => hak (haq.trans h)
        have haqb : (a.1 == q) = true := by simpa using haq
        have h1 : mapGet (a :: mapSet m k v) q = some a.2 := by
          simp [mapGet, List.find?, haqb]
        have h2 : mapGet (a :: m) q = some a.2 := by
          simp [mapGet, List.find?, haqb]
        rw [h1, if_neg hq, h2]
      · have haqb : (a.1 == q) = false := by
          simp only [beq_eq_false_iff_ne, ne_eq]
          exact haq
        have h1 : mapGet (a :: mapSet m k v) q = mapGet (mapSet m k v) q := by
          simp [mapGet, List.find?, haqb]
        have h2 : mapGet (a :: m) q = mapGet m q := by
          simp [mapGet, List.find?, haqb]
        rw [h1, ih]
        by_cases hq : q = k
        · rw [if_pos hq, if_pos hq]
        · rw [if_neg hq, if_neg hq, h2]

/-- A fold step over tools that never touches key `k` leaves `k`'s binding
unchanged. -/
lemma buildMap_untouched :
    ∀ (tools : List AITool) (m : List (String × String)) (k : String),
      (∀ t ∈ tools, normalizeToolName t.name ≠ k) →
      mapGet (tools.foldl
        (fun m t => mapSet m (normalizeToolName t.name) t.name) m) k =
        mapGet m k := by
  intro tools
  induction tools with
  | nil => intro m k _; rfl
  | cons a rest ih =>
    intro m k h
    rw [List.foldl_cons, ih _ _ (fun t ht => h t (List.mem_cons_of_mem _ ht)),
      mapGet_mapSet]
    have := h a (by simp)
    rw [if_neg (fun hk => this hk.symm)]

/-- If no two catalog names normalize to the same form, the rebuilt map
sends each tool's normalized name back to its original name. -/
lemma buildMap_get (tools : List AITool) (m0 : List (String × String))
    (t : AITool) (ht : t ∈ tools)
    (hdist : ∀ t' ∈ tools, t' ≠ t →
      normalizeToolName t'.name ≠ normalizeToolName t.name) :
    mapGet (tools.foldl
      (fun m t => mapSet m (normalizeToolName t.name) t.name) m0)
      (normalizeToolName t.name) = some t.name := by
  induction tools generalizing m0 with
  | nil => simp at ht
  | cons a rest ih =>
    rw [List.foldl_cons]
    by_cases hr : t ∈ rest
    · exact ih _ hr
        (fun t' ht' hne => hdist t' (List.mem_cons_of_mem _ ht') hne)
    · have hta : t = a := by
        rcases List.mem_cons.mp ht with h | h
        · exact h
        · exact absurd h hr
      subst hta
      rw [buildMap_untouched rest _ _
        (fun t' ht' => hdist t' (List.mem_cons_of_mem _ ht')
          (fun he => hr (he ▸ ht')))]
      rw [mapGet_mapSet, if_pos rfl]

/-- Any binding of the rebuilt map comes from some catalog tool. -/
lemma buildMap_value :
    ∀ (tools : List AITool) (m0 : List (String × String)) (k v : String),
      mapGet (tools.foldl
        (fun m t => mapSet m (normalizeToolName t.name) t.name) m0) k =
          some v →
      (∃ t ∈ tools, v = t.name ∧ normalizeToolName t.name = k) ∨
        mapGet m0 k = some v := by
  intro tools
  induction tools with
  | nil => intro m0 k v h; exact Or.inr h
  | cons a rest ih =>
    intro m0 k v h
    rw [List.foldl_cons] at h
    rcases ih _ _ _ h with ⟨t, htr, hv, hk⟩ | hbase
    · exact Or.inl ⟨t, List.mem_cons_of_mem _ htr, hv, hk⟩
    · rw [mapGet_mapSet] at hbase
      by_cases hk : k = normalizeToolName a.name
      · rw [if_pos hk] at hbase
        injection hbase with hv
        exact Or.inl ⟨a, by simp, hv.symm, hk.symm⟩
      · rw [if_neg hk] at hbase
        exact Or.inr hbase

lemma dotRepl_idem (c : Char) :
    (if (if c = '.' then '_' else c) = '.' then '_'
     else (if c = '.' then '_' else c)) = (if c = '.' then '_' else c) := by
  by_cases h : c = '.' <;> simp [h]

lemma normalizeToolName_idem (s : String) :
    normalizeToolName (normalizeToolName s) = normalizeToolName s := by
  unfold normalizeToolName
  refine congrArg String.mk ?_
  show (s.data.map fun c => if c = '.' then '_' else c).map
      (fun c => if c = '.' then '_' else c) =
    s.data.map fun c => if c = '.' then '_' else c
  rw [List.map_map]
  exact List.map_congr_left fun c _ => dotRepl_idem c

/-- Every `tool_use` event of an OpenAI call names its tool by looking the
streamed function name up in the freshly rebuilt map (falling back to the
streamed name itself). -/
lemma openai_toolUse_name (pm : List (String × String)) (tools : List AITool)
    (jparse : String → Except String String) (inp : OpenAIOutcome)
    (tc : ToolCall)
    (h : AIEvent.tool_use tc ∈ openaiSendMessage pm tools jparse inp) :
    ∃ fname, tc.name = (mapGet (buildToolNameMap pm tools) fname).getD fname := by
  have hstep : AIEvent.tool_use tc ∈ (openaiRun pm tools jparse inp).1 := by
    unfold openaiSendMessage at h
    cases hcase : (openaiRun pm tools jparse inp).2 with
    | none =>
      rw [hcase] at h
      simpa using h
    | some e =>
      rw [hcase] at h
      simp only [List.mem_cons, List.mem_append, List.mem_singleton,
        List.not_mem_nil, or_false] at h
      rcases h with h | h | h
      · cases h
      · exact h
      · cases h
  obtain ⟨cr, se⟩ := inp
  match cr with
  | .error e => simp [openaiRun] at hstep
  | .ok chunks =>
    obtain ⟨pre, hpre_eq, hpre⟩ := foldl_processChunk_events chunks ⟨"", [], []⟩
    simp only [OState.events] at hpre_eq
    rw [List.nil_append] at hpre_eq
    have hnotpre : AIEvent.tool_use tc ∉
        (chunks.foldl processChunk ⟨"", [], []⟩).events := by
      rw [hpre_eq]
      intro hmem
      have := hpre _ hmem
      simp [isUpdate] at this
    match se with
    | some e =>
      have hrun : (openaiRun pm tools jparse ⟨.ok chunks, some e⟩).1 =
          (chunks.foldl processChunk ⟨"", [], []⟩).events := by
        simp [openaiRun]
      rw [hrun] at hstep
      exact absurd hstep hnotpre
    | none =>
      by_cases htc :
          (chunks.foldl processChunk ⟨"", [], []⟩).toolCalls.length > 0
      · have hrun : (openaiRun pm tools jparse ⟨.ok chunks, none⟩).1 =
            (chunks.foldl processChunk ⟨"", [], []⟩).events ++
              (finalizeToolCalls (buildToolNameMap pm tools) jparse
                (chunks.foldl processChunk ⟨"", [], []⟩).toolCalls).1 := by
          simp [openaiRun, htc]
        rw [hrun] at hstep
        rcases List.mem_append.mp hstep with h1 | h2
        · exact absurd h1 hnotpre
        · obtain ⟨id, fname, input, heq⟩ :=
            finalizeToolCalls_events _ _ _ _ h2
          injection heq with heq'
          exact ⟨fname, by rw [heq']⟩
      · have hrun : (openaiRun pm tools jparse ⟨.ok chunks, none⟩).1 =
            (chunks.foldl processChunk ⟨"", [], []⟩).events ++
              [.message_complete
                (chunks.foldl processChunk
                  ⟨"", [], []⟩).accumulatedContent] := by
          simp [openaiRun, htc]
        rw [hrun] at hstep
        rcases List.mem_append.mp hstep with h1 | h2
        · exact absurd h1 hnotpre
        · rw [List.mem_singleton] at h2
          cases h2

/-- Any buffered Anthropic tool call originates verbatim from a `tool_use`
response block. -/
lemma anthropicCollect_fold_mem :
    ∀ (blocks : List AnthropicBlock) (acc : String × List ToolCall)
      (tc : ToolCall),
      tc ∈ (blocks.foldl
        (fun acc b =>
          match b with
          | .text s => (acc.1 ++ s, acc.2)
          | .tool_use id name input => (acc.1, acc.2 ++ [⟨id, name, input⟩]))
        acc).2 →
      tc ∈ acc.2 ∨ AnthropicBlock.tool_use tc.id tc.name tc.input ∈ blocks := by
  intro blocks
  induction blocks with
  | nil =>
    intro acc tc h
    exact Or.inl h
  | cons b rest ih =>
    intro acc tc h
    rw [List.foldl_cons] at h
    rcases ih _ tc h with hacc | hrest
    · match b with
      | .text s => exact Or.inl hacc
      | .tool_use id name input =>
        rcases List.mem_append.mp hacc with h1 | h2
        · exact Or.inl h1
        · rw [List.mem_singleton] at h2
          subst h2
          exact Or.inr (by simp)
    · exact Or.inr (List.mem_cons_of_mem _ hrest)

/-- A `tool_use` event of a successful Anthropic call carries exactly the
provider's block, name untouched: the Anthropic adapter performs no name
rewriting in either direction. -/
lemma anthropic_toolUse_mem (blocks : List AnthropicBlock) (tc : ToolCall)
    (h : AIEvent.tool_use tc ∈ anthropicSendMessage (.ok blocks)) :
    AnthropicBlock.tool_use tc.id tc.name tc.input ∈ blocks := by
  have hb : AIEvent.tool_use tc ∈ anthropicBody blocks := by
    have hmsg : anthropicSendMessage (.ok blocks) =
        .message_start :: (anthropicBody blocks ++ []) := rfl
    rw [hmsg, List.append_nil] at h
    rcases List.mem_cons.mp h with he | hm
    · cases he
    · exact hm
  rw [anthropicBody_eq] at hb
  rcases List.mem_append.mp hb with h1 | h2
  · by_cases hc : (anthropicCollect blocks).1 = ""
    · rw [if_pos hc] at h1
      cases h1
    · rw [if_neg hc, List.mem_singleton] at h1
      cases h1
  · by_cases hlen : (anthropicCollect blocks).2.length > 0
    · rw [if_pos hlen, List.mem_map] at h2
      obtain ⟨tc', htc', heq⟩ := h2
      injection heq with heq'
      subst heq'
      rcases anthropicCollect_fold_mem blocks ("", []) tc' htc' with h | h
      · cases h
      · exact h
    · rw [if_neg hlen, List.mem_singleton] at h2
      cases h2

/-- C3 (amended).  Provided no two catalog tool names rewrite to the same
normalized form, every `tool_use` event names the tool by its original
registered name and never by the rewritten form; the rewritten-to-original
map is rebuilt from scratch on every `sendMessage` call (the output is
independent of the map's previous contents), and the Anthropic adapter
passes block names through verbatim. -/
theorem C3_tool_name_roundtrip (pm : List (String × String))
    (tools : List AITool) (jparse : String → Except String String)
    (inp : OpenAIOutcome)
    (hinj : tools.Pairwise
      (fun a b => normalizeToolName a.name ≠ normalizeToolName b.name)) :
    (∀ pm', openaiSendMessage pm tools jparse inp =
      openaiSendMessage pm' tools jparse inp) ∧
    (∀ t ∈ tools,
      mapGet (buildToolNameMap pm tools) (normalizeToolName t.name) =
        some t.name) ∧
    (∀ t ∈ tools, '.' ∈ t.name.data → ∀ tc,
      AIEvent.tool_use tc ∈ openaiSendMessage pm tools jparse inp →
      tc.name ≠ normalizeToolName t.name) ∧
    (∀ (blocks : List AnthropicBlock) (tc : ToolCall),
      AIEvent.tool_use tc ∈ anthropicSendMessage (.ok blocks) →
      AnthropicBlock.tool_use tc.id tc.name tc.input ∈ blocks) := by
  have hsym : Symmetric (fun a b : AITool =>
      normalizeToolName a.name ≠ normalizeToolName b.name) :=
    fun a b h he => h he.symm
  have hforall := hinj.forall hsym
  have hpos : ∀ t ∈ tools,
      mapGet (buildToolNameMap pm tools) (normalizeToolName t.name) =
        some t.name := by
    intro t ht
    exact buildMap_get tools (mapClear pm) t ht
      (fun t' ht' hne => hforall ht' ht hne)
  refine ⟨fun pm' => rfl, hpos, ?_,
    fun blocks tc h => anthropic_toolUse_mem blocks tc h⟩
  intro t ht hdot tc hmem heq
  obtain ⟨fname, hshape⟩ := openai_toolUse_name pm tools jparse inp tc hmem
  cases hv : mapGet (buildToolNameMap pm tools) fname with
  | none =>
    rw [hv, Option.getD_none] at hshape
    have hf : fname = normalizeToolName t.name := hshape.symm.trans heq
    rw [hf, hpos t ht] at hv
    cases hv
  | some v =>
    rw [hv, Option.getD_some] at hshape
    have hval := (buildMap_value tools (mapClear pm) fname v hv).resolve_right
      (by simp [mapGet, mapClear])
    obtain ⟨t', ht', hvt, hkt⟩ := hval
    have hname : t'.name = normalizeToolName t.name :=
      hvt.symm.trans (hshape.symm.trans heq)
    have hnn : normalizeToolName t'.name = normalizeToolName t.name := by
      rw [hname, normalizeToolName_idem]
    by_cases htt : t' = t
    · subst htt
      exact normalizeToolName_ne_of_dot t'.name hdot hname.symm
    · exact hforall ht' ht htt hnn

def toolsC3 : List AITool := [⟨"a.b", "d1", "s1"⟩, ⟨"a_b", "d2", "s2"⟩]

def inpC3 : OpenAIOutcome :=
  ⟨.ok [some ⟨none, some [⟨0, some "call_1", some "a_b", some "{}"⟩]⟩], none⟩

/-- Counterexample to C3 as stated: with both `"a.b"` and `"a_b"`
registered (their normalized forms collide), the streamed call `"a_b"`
produces a `tool_use` event whose name is `"a_b"` — exactly the rewritten
form of the registered dotted tool `"a.b"`, not its original name. -/
theorem C3_tool_name_roundtrip_counterexample :
    (⟨"a.b", "d1", "s1"⟩ : AITool) ∈ toolsC3 ∧
    '.' ∈ ("a.b" : String).data ∧
    normalizeToolName "a.b" = "a_b" ∧
    AIEvent.tool_use ⟨"call_1", "a_b", "{}"⟩ ∈
      openaiSendMessage [] toolsC3 (fun s => .ok s) inpC3 ∧
    "a_b" ≠ "a.b" := by
  refine ⟨by decide, by decide, by decide, ?_, by decide⟩
  decide

/-- Witness for the amended C3: a single dotted tool, injective catalog. -/
theorem C3_tool_name_roundtrip_witness :
    mapGet (buildToolNameMap [] [⟨"a.b.c", "d", "s"⟩])
      (normalizeToolName "a.b.c") = some "a.b.c" :=
  (C3_tool_name_roundtrip [] [⟨"a.b.c", "d", "s"⟩] (fun s => .ok s)
    ⟨.ok [], none⟩ (by simp)).2.1 ⟨"a.b.c", "d", "s"⟩ (by simp)
